import Mathlib

/-!
Verification of the salami-chords parser (`dataset.py`, McGill-Billboard).

The source operates on Python strings.  We shallowly embed it over
`Str := List Char` (Python's `str` is a sequence of code points; Lean's
`String.data` gives the same view of a literal).  Each definition below names
the source construct it translates; documents are passed as their raw
character sequence and split into lines exactly as `salami.split('\n')` does.

The section segmentation in the source is one multiline regex driven by
`re.finditer`:

  section_regex =
    r"^.*\t(?:[A-Z]'*, )?(?P<type>[a-z\-]+),(?:.*\n)*?(?=^.*\t(?:[A-Z]'*, )?(?:[a-z\-]+))"

All of its pieces are line-structured (`^` anchors at line starts, `.` never
crosses a newline, `(?:.*\n)` consumes whole lines), so `finditer` over the
document is embedded as a line-level scan:

  * a line starts a section if `.*\t(?:[A-Z]'*, )?(?P<type>[a-z\-]+),` matches
    a prefix of it (the greedy `.*` prefers the rightmost tab; the greedy
    `[a-z\-]+` makes the captured label the maximal lowercase/hyphen run after
    the optional variant marker, and shrinking it can never reach a comma, so
    the backtracking is the deterministic scan coded in `labelAfterTab`);
  * the lazy `(?:.*\n)*?` plus the lookahead stops the match right before the
    first following line whose prefix matches `.*\t(?:[A-Z]'*, )?[a-z\-]+`
    (no comma required there); if no such line follows, the whole match fails
    and `finditer` moves on, so a final section with no section-like line
    after it is silently dropped;
  * `finditer` resumes scanning at the end of the previous match, which is
    exactly the terminating lookahead line.

`sectionsGo` below implements this scan in a single pass.
-/

/-- A Python string, viewed as its sequence of code points. -/
abbrev Str := List Char

/-- Whitespace as Python's `str.strip` / regex `\s` treat it (ASCII range). -/
def isPySpace (c : Char) : Bool :=
  c == ' ' || c == '\t' || c == '\n' || c == '\r' || c == '\x0b' || c == '\x0c'

/-- Regex `\S`: any non-whitespace character. -/
def isNonSpace (c : Char) : Bool := !isPySpace c

/-- Character class `[A-G]` of the chord-symbol regex. -/
def isAG (c : Char) : Bool := decide ('A' ≤ c) && decide (c ≤ 'G')

/-- Regex `\d` (ASCII digits, the only ones occurring here). -/
def isDigitCh (c : Char) : Bool := decide ('0' ≤ c) && decide (c ≤ '9')

/-- Character class `[A-Z]`. -/
def isUpperAZ (c : Char) : Bool := decide ('A' ≤ c) && decide (c ≤ 'Z')

/-- Character class `[a-z\-]` used for section labels. -/
def lowerHyphen (c : Char) : Bool :=
  (decide ('a' ≤ c) && decide (c ≤ 'z')) || c == '-'

/-- Python's `text.split('\n')` (line 88 of the source: `salami.split('\n')`).
`"a\nb\n"` splits to `["a", "b", ""]` and `""` splits to `[""]`. -/
def splitLines : Str → List Str
  | [] => [[]]
  | c :: rest =>
    if c = '\n' then [] :: splitLines rest
    else
      match splitLines rest with
      | l :: ls => (c :: l) :: ls
      | [] => [[c]]

/-- Python's `startswith` for a single-character pattern (line 91:
`x.startswith('#')`). -/
def pyStartsWithChar (s : Str) (c : Char) : Bool :=
  match s with
  | [] => false
  | a :: _ => a == c

/-- Python's `x.lstrip('# ')`: remove every leading `'#'` or `' '` (line 92). -/
def lstripHashSpace (s : Str) : Str :=
  s.dropWhile (fun c => c == '#' || c == ' ')

/-- Python's `v.strip()` on the ASCII whitespace set (line 93). -/
def pyStrip (s : Str) : Str :=
  ((s.dropWhile isPySpace).reverse.dropWhile isPySpace).reverse

/-- One header line (lines 92-93 of the source):
`x.lstrip('# ').split(':', maxsplit=1)` followed by the unpacking
`{k: v.strip() for (k, v) in headers}`.  A line whose stripped form has no
`':'` splits into a single piece and the `(k, v)` unpacking raises
`ValueError`, modelled as `none`. -/
def parseHeaderLine (line : Str) : Option (Str × Str) :=
  let s := lstripHashSpace line
  let rest := s.dropWhile (fun c => c != ':')
  if rest.isEmpty then none
  else some (s.takeWhile (fun c => c != ':'), pyStrip (rest.drop 1))

/-- Effectful `map` over `Option`, used wherever a mapped Python function can
raise (the whole document parse then aborts). -/
def mapMOpt (f : α → Option β) : List α → Option (List β)
  | [] => some []
  | a :: t =>
    match f a, mapMOpt f t with
    | some b, some bs => some (b :: bs)
    | _, _ => none

/-- The `(k, v)` pairs of all `'#'`-prefixed lines, in order (lines 91-93). -/
def headerPairs (lines : List Str) : Option (List (Str × Str)) :=
  mapMOpt parseHeaderLine (lines.filter (fun l => pyStartsWithChar l '#'))

/-- Python-dict insertion: a duplicate key keeps its original position but
takes the new value; a fresh key is appended. -/
def dictInsert (m : List (Str × Str)) (k v : Str) : List (Str × Str) :=
  if m.any (fun p => p.1 == k) then
    m.map (fun p => if p.1 = k then (k, v) else p)
  else m ++ [(k, v)]

/-- The dict comprehension of line 93: later duplicate keys overwrite. -/
def dictOf (ps : List (Str × Str)) : List (Str × Str) :=
  ps.foldl (fun m p => dictInsert m p.1 p.2) []

/-- Dict lookup: the value stored at the (unique) matching key. -/
def lookupKey (m : List (Str × Str)) (k : Str) : Option Str :=
  (m.find? (fun p => p.1 == k)).map (fun p => p.2)

/-- The full header mapping of a document: the parsed pairs as a dict, then
`headers['url'] = fname` (line 94). -/
def headersOf (fname : Str) (lines : List Str) : Option (List (Str × Str)) :=
  match headerPairs lines with
  | none => none
  | some ps => some (dictInsert (dictOf ps) "url".data fname)

/-- The optional section-variant marker `(?:[A-Z]'*, )?`: one capital letter,
any number of apostrophes, then a comma and a space.  If the marker does not
match, the optional group matches the empty string.  (When the marker does
match, the regex engine could still backtrack to the empty alternative, but
then the label class `[a-z\-]+` would start at the capital letter and fail,
so committing to a successful marker is faithful.) -/
def dropVariantMarker (s : Str) : Str :=
  match s with
  | [] => []
  | c :: rest =>
    if isUpperAZ c then
      match rest.dropWhile (fun x => x == '\'') with
      | ',' :: ' ' :: r3 => r3
      | _ => c :: rest
    else c :: rest

/-- After a chosen tab: `(?:[A-Z]'*, )?(?P<type>[a-z\-]+),`.  The greedy
`[a-z\-]+` takes the maximal run; a shorter run would be followed by another
`[a-z\-]` character, never the required comma, so no backtracking arises. -/
def labelAfterTab (s : Str) : Option Str :=
  let s2 := dropVariantMarker s
  let run := s2.takeWhile lowerHyphen
  if run.isEmpty then none
  else
    match s2.dropWhile lowerHyphen with
    | ',' :: _ => some run
    | _ => none

/-- Does `^.*\t(?:[A-Z]'*, )?(?P<type>[a-z\-]+),` match a prefix of the line,
and with which captured label?  The greedy `.*` tries the rightmost tab
first, hence the recursive call is preferred over the current tab. -/
def startMatch : Str → Option Str
  | [] => none
  | c :: rest =>
    if c == '\t' then
      match startMatch rest with
      | some lab => some lab
      | none => labelAfterTab rest
    else startMatch rest

/-- The lookahead `(?=^.*\t(?:[A-Z]'*, )?(?:[a-z\-]+))` applied to one line:
some tab is followed by the optional variant marker and a nonempty
lowercase/hyphen run (no comma needed). -/
def lookaheadMatch : Str → Bool
  | [] => false
  | c :: rest =>
    (c == '\t' && !((dropVariantMarker rest).takeWhile lowerHyphen).isEmpty)
      || lookaheadMatch rest

/-- One left-to-right pass implementing `re.finditer(section_regex, ...)`
(lines 105-109).  State `cur` is the section match currently being extended:
it was opened at a section-starting line and grows until the next
lookahead-matching line, which closes (emits) it and is itself examined as a
new section start; `finditer` resumes exactly there.  A match still open at
the end of the document lacks its required lookahead, so the regex match
fails and the pending section is discarded — and since every
section-starting line also satisfies the lookahead, no line of the pending
tail can open a later section either, matching `finditer` finding nothing
more.  The next three helpers are the scan's three per-line actions, and
`sectionsGo` is the pass itself. -/
def emitOf : Option (Str × List Str) → List (Str × List Str)
  | some s => [s]
  | none => []

/-- The match opened at a lookahead line: a fresh section when the line also
matches the section-start pattern. -/
def openOf (l : Str) : Option (Str × List Str) :=
  match startMatch l with
  | some lab => some (lab, [l])
  | none => none

/-- A non-lookahead line extends the pending match (the lazy `(?:.*\n)*?`
consuming one more whole line). -/
def extendCur (l : Str) : Option (Str × List Str) → Option (Str × List Str)
  | some s => some (s.1, s.2 ++ [l])
  | none => none

def sectionsGo (cur : Option (Str × List Str)) : List Str → List (Str × List Str)
  | [] => []
  | l :: rest =>
    if lookaheadMatch l then emitOf cur ++ sectionsGo (openOf l) rest
    else sectionsGo (extendCur l cur) rest

/-- `sections = re.finditer(section_regex, salami, re.MULTILINE)` followed by
`map(lambda m: (m.groups()[0], m.group()), sections)` (lines 107-108), with
each match given by its list of lines.  The matched text ends with the
newline before the lookahead line, so its later `split('\n')` is the line
group plus one trailing empty string (added in `sectionFlatTokens`). -/
def sectionsOf (lines : List Str) : List (Str × List Str) :=
  sectionsGo none lines

/-- Spec-side: the index of the first lookahead-matching line of a line
group, if any — the line at which the lazy `(?:.*\n)*?` stops
(`firstLookahead_some` and `firstLookahead_none` prove the characterizing
properties: the line at a returned index matches the lookahead and no
earlier line does, and `none` means no line matches). -/
def firstLookahead : List Str → Option Nat
  | [] => none
  | l :: rest =>
    if lookaheadMatch l then some 0 else (firstLookahead rest).map (· + 1)

/-- Spec-side segmentation rule, stated from the corrected claim: a line
matching the section-start pattern opens a section consisting of that line
plus every following line up to (but excluding) the first later
lookahead-matching line; the section is emitted only when such a later
section-like line exists (`firstLookahead rest = some k`), otherwise the
regex match fails and the pending section is dropped — in particular the
final section of a document followed by no section-like line; scanning
resumes at the terminating lookahead line (`rest.drop k` starts with it),
so sections are disjoint contiguous segments in document order.
`sectionsGo_none_eq_spec` proves the single-pass scan `sectionsOf` equal to
this rule on every document. -/
def sectionsSpec : List Str → List (Str × List Str)
  | [] => []
  | l :: rest =>
    match startMatch l, firstLookahead rest with
    | some lab, some k => (lab, l :: rest.take k) :: sectionsSpec (rest.drop k)
    | _, _ => sectionsSpec rest
termination_by ls => ls.length
decreasing_by
  all_goals simp only [List.length_drop, List.length_cons]
  all_goals omega

/-- The fixed prefix tuple of `clean_labels` (line 114), in source order. -/
def labelPrefixes : List Str :=
  ["trans".data, "verse".data, "chorus".data, "prechorus".data, "intro".data,
   "instrumental".data, "spoken".data]

/-- `clean_labels` (lines 111-119): drop `'-'` and `' '`, collapse a label
starting with a listed token to that token (the loop over the tuple), then
rewrite `modulation` to `keychange`. -/
def cleanLabels (label : Str) : Str :=
  let cleaned := (label.filter (fun c => c != '-')).filter (fun c => c != ' ')
  let collapsed :=
    labelPrefixes.foldl (fun lab p => if p.isPrefixOf lab then p else lab) cleaned
  if collapsed = "modulation".data then "keychange".data else collapsed

/-- The `[#b]?:\S+` tail of the chord alternative, applied after the `[A-G]`
character.  `\S+` is greedy, so it takes the maximal non-whitespace run, and
must be nonempty.  If `[#b]?` consumed a character but no `':'` follows, the
empty alternative would need `':'` at that same `'#'`/`'b'` character, so it
fails too. -/
def chordTail (rest : Str) : Option (Str × Str) :=
  match rest with
  | [] => none
  | d :: rest2 =>
    if d == '#' || d == 'b' then
      match rest2 with
      | [] => none
      | e :: r3 =>
        if e == ':' then
          let run := r3.takeWhile isNonSpace
          if run.isEmpty then none
          else some (d :: ':' :: run, r3.dropWhile isNonSpace)
        else none
    else if d == ':' then
      let run := rest2.takeWhile isNonSpace
      if run.isEmpty then none
      else some (':' :: run, rest2.dropWhile isNonSpace)
    else none

/-- One attempt of `valid_symbol` (line 126,
`r'(?:[A-G][#b]?:\S+)|\*|(?:\&pause)|(?:x\d+)|N'`) at the current position:
the five alternatives have pairwise distinct possible first characters, so
the regex engine's left-to-right alternative order collapses to this
first-character dispatch.  Returns the matched symbol and the remaining
characters. -/
def matchSymbolAt : Str → Option (Str × Str)
  | [] => none
  | c :: rest =>
    if isAG c then
      match chordTail rest with
      | some (tl, r) => some (c :: tl, r)
      | none => none
    else if c == '*' then some (['*'], rest)
    else if c == '&' then
      if "pause".data.isPrefixOf rest then
        some ('&' :: "pause".data, rest.drop 5)
      else none
    else if c == 'x' then
      let ds := rest.takeWhile isDigitCh
      if ds.isEmpty then none
      else some ('x' :: ds, rest.dropWhile isDigitCh)
    else if c == 'N' then some (['N'], rest)
    else none

/-- Scanning loop of `valid_symbol.findall`: emit the match at the current
position and continue after it, or advance one character.  The fuel argument
only bounds the recursion; every emitted symbol is nonempty
(`matchSymbolAt_append` below), so fuel `cs.length` is never exhausted. -/
def findallGo : Nat → Str → List Str
  | 0, _ => []
  | _ + 1, [] => []
  | n + 1, c :: rest =>
    match matchSymbolAt (c :: rest) with
    | some (t, r) => t :: findallGo n r
    | none => findallGo n rest

/-- `valid_symbol.findall(line)` (line 128): all non-overlapping matches of
the symbol regex, left to right. -/
def findall (cs : Str) : List Str := findallGo cs.length cs

/-- Python `int(s)` on the digit strings that occur here (the suffix of an
`x\d+` token is one or more ASCII digits; on anything non-numeric `int`
raises, modelled as `none`). -/
def digitsVal (s : Str) : Nat :=
  s.foldl (fun n c => 10 * n + (c.toNat - '0'.toNat)) 0

/-- See `digitsVal`: `int(s)` as an `Option`. -/
def parseDigits (s : Str) : Option Nat :=
  if s.isEmpty then none
  else if s.all isDigitCh then some (digitsVal s) else none

/-- Python list repetition `xs * n` (negative counts, which `len(...) - 1`
can produce, give `[]`, as does `Nat` truncated subtraction). -/
def listMul (xs : List α) : Nat → List α
  | 0 => []
  | n + 1 => xs ++ listMul xs n

/-- `resolve_repeats` (lines 136-140): if the last token starts with `'x'`,
parse its digit suffix as `n` and repeat the preceding tokens `n` times.
`x[-1]` on an empty list raises `IndexError`, modelled as `none` (the
pipeline only applies this to nonempty token lists). -/
def resolveRepeats (x : List Str) : Option (List Str) :=
  match x.getLast? with
  | none => none
  | some lastTok =>
    if pyStartsWithChar lastTok 'x' then
      match parseDigits (lastTok.drop 1) with
      | none => none
      | some reps => some (listMul x.dropLast reps)
    else some x

/-- Lines 123-144 for one section: split the matched text into lines (the
text ends with a newline, hence the extra trailing empty line), extract the
symbols of each line, drop lines with no symbols (`valid_lines`), resolve
trailing repeats, and flatten. -/
def sectionFlatTokens (grp : List Str) : Option (List Str) :=
  match
    mapMOpt resolveRepeats
      (((grp ++ [[]]).map findall).filter (fun ts => decide (ts.length > 0)))
  with
  | none => none
  | some tss => some tss.flatten

/-- Lines 121-147: normalized labels zipped with each section's flat token
sequence, keeping only sections whose label is nonempty. -/
def retainedPairs (lines : List Str) : Option (List (Str × List Str)) :=
  let secs := sectionsOf lines
  match mapMOpt (fun s => sectionFlatTokens s.2) secs with
  | none => none
  | some toks =>
    some (((secs.map (fun s => cleanLabels s.1)).zip toks).filter
      (fun p => decide (p.1 ≠ [])))

/-- The assembly loop (lines 150-156): per retained section, `chord_seq`
gains the tokens and `label_seq` gains `[label] * (k - 1)` then `'eos'`. -/
def assemble : List (Str × List Str) → List Str × List Str
  | [] => ([], [])
  | (lab, cs) :: rest =>
    let r := assemble rest
    (cs ++ r.1, (listMul [lab] (cs.length - 1) ++ ["eos".data]) ++ r.2)

/-- `_process_salami` on a document already split into lines.  Failure points,
in evaluation order: a header line without `':'` (line 93), zero regex
matches making `zip(*sections)` raise (line 109), a repeat resolution error,
and an empty retained list making `zip(*lab_n_chords)` raise (line 148). -/
def processLines (fname : Str) (lines : List Str) :
    Option (List (Str × Str) × List Str × List Str) :=
  match headersOf fname lines with
  | none => none
  | some hs =>
    match sectionsOf lines with
    | [] => none
    | _ :: _ =>
      match retainedPairs lines with
      | none => none
      | some [] => none
      | some (p :: ps) =>
        some (hs, (assemble (p :: ps)).1, (assemble (p :: ps)).2)

/-- `_process_salami` (lines 84-158): read the document text, split it into
lines, and process. -/
def processSalami (fname : Str) (salami : Str) :
    Option (List (Str × Str) × List Str × List Str) :=
  processLines fname (splitLines salami)

/-- Insertion of one string into a lexicographically sorted list. -/
def insertSorted (a : Str) : List Str → List Str
  | [] => [a]
  | b :: t => if a ≤ b then a :: b :: t else b :: insertSorted a t

/-- `sorted(...)` over strings: Python compares strings lexicographically by
code point, which is exactly `≤` on `List Char`; on duplicate-free input any
correct sort produces the same list. -/
def sortStrs (l : List Str) : List Str := l.foldr insertSorted []

/-- `sorted(list(set(allX)))` (lines 72-73): the distinct tokens of the whole
corpus, in ascending lexicographic order. -/
def vocabOf (seqs : List (List Str)) : List Str :=
  sortStrs seqs.flatten.dedup

/-- Position of the first occurrence of `a`.  On the duplicate-free vocabulary
list this is the index `enumerate` pairs with each token, i.e. the value the
dict comprehension `{c: i for i, c in enumerate(self.chords)}` stores. -/
def idxOf (a : Str) : List Str → Nat
  | [] => 0
  | b :: t => if b = a then 0 else idxOf a t + 1

/-- `chord2idx` / `label2idx` (lines 75-76) as a function. -/
def vocabIdx (seqs : List (List Str)) (t : Str) : Nat :=
  idxOf t (vocabOf seqs)

/-- Spec-side (4.3 step (a)): remove all hyphens and space characters. -/
def labelStepStrip (l : Str) : Str :=
  (l.filter (fun c => c != '-')).filter (fun c => c != ' ')

/-- Spec-side (4.3 step (b)): for each member of the fixed prefix set, in
order, replace the whole label with the member when the label starts with
it. -/
def labelStepCollapse (l : Str) : Str :=
  labelPrefixes.foldl (fun lab p => if p.isPrefixOf lab then p else lab) l

/-- Spec-side (4.3 step (c)): rewrite `modulation` to `keychange`. -/
def labelStepModulation (l : Str) : Str :=
  if l = "modulation".data then "keychange".data else l

/-- Spec-side grammar (4.4): the tail `:\S+` of a chord symbol as a
whole-string check. -/
def colonRun : Str → Bool
  | [] => false
  | e :: rest => e == ':' && !rest.isEmpty && rest.all isNonSpace

/-- Spec-side grammar (4.4): a full chord symbol `[A-G][#b]?:\S+`. -/
def isChordSym : Str → Bool
  | [] => false
  | c :: rest =>
    isAG c &&
      (colonRun rest ||
        (match rest with
         | d :: rest2 => (d == '#' || d == 'b') && colonRun rest2
         | [] => false))

/-- Spec-side grammar (4.4): a full repeat marker `x\d+`. -/
def isRepMark : Str → Bool
  | [] => false
  | c :: ds => c == 'x' && !ds.isEmpty && ds.all isDigitCh

/-- Spec-side grammar (4.4): a string that is exactly one of the five symbol
alternatives. -/
def isValidSymbol (t : Str) : Bool :=
  isChordSym t || t == ['*'] || t == ('&' :: "pause".data) ||
    isRepMark t || t == ['N']

/-- Document whose single retained section resolves to zero tokens: the only
chord-line token is the repeat marker `x0`. -/
def doc0Lines : List Str := splitLines "0.0\tverse, x0\n1.0\tend\n".data

/-- Document with two section-starting lines and no trailing section-like
line after the second one. -/
def doc3Lines : List Str :=
  splitLines "0.0\tA, verse, C:maj\n1.0\tB, chorus, D:min\n".data

/-- Document with one section whose raw label `-` normalizes to the empty
string. -/
def docELines : List Str := splitLines "0.0\t-, C:maj\n1.0\tend\n".data

/-- Document with a header line carrying whitespace around the `':'`. -/
def docHLines : List Str :=
  splitLines "# title : Foo\n0.0\tverse, C:maj\n1.0\tend\n".data

/-- Document whose single section has the raw label `eos`. -/
def doc10Lines : List Str :=
  splitLines "0.0\teos, C:maj D:min\n1.0\tend\n".data

/-- Document with one two-token `verse` section. -/
def docWLines : List Str :=
  splitLines "0.0\tverse, C:maj D:min\n1.0\tend\n".data

lemma listMul_singleton (a : α) : ∀ n, listMul [a] n = List.replicate n a
  | 0 => rfl
  | n + 1 => by
    simp [listMul, listMul_singleton a n, List.replicate_succ]

lemma listMul_one (xs : List α) : listMul xs 1 = xs := by simp [listMul]

/-- C4: a line's token list ending in a repeat marker `x` + digits resolves
to `n` concatenated copies of the preceding tokens, `n` the parsed digit
suffix; `['C:maj', 'D:min', 'x3']` triples the pair, `x1` only removes the
marker, `x0` empties the line. -/
theorem resolveRepeats_expands :
    (∀ (ts : List Str) (ds : Str), ds ≠ [] → ds.all isDigitCh = true →
      resolveRepeats (ts ++ ['x' :: ds]) = some (listMul ts (digitsVal ds))) ∧
    resolveRepeats ["C:maj".data, "D:min".data, "x3".data] =
      some ["C:maj".data, "D:min".data, "C:maj".data, "D:min".data,
            "C:maj".data, "D:min".data] ∧
    (∀ ts : List Str, resolveRepeats (ts ++ ["x1".data]) = some ts) ∧
    (∀ ts : List Str, resolveRepeats (ts ++ ["x0".data]) = some []) := by
  have main : ∀ (ts : List Str) (ds : Str), ds ≠ [] → ds.all isDigitCh = true →
      resolveRepeats (ts ++ ['x' :: ds]) = some (listMul ts (digitsVal ds)) := by
    intro ts ds hne hdig
    have hd : ('x' :: ds : Str).drop 1 = ds := rfl
    simp [resolveRepeats, List.getLast?_concat, pyStartsWithChar, parseDigits,
          List.dropLast_concat, hd, hdig, hne]
  refine ⟨main, by decide, fun ts => ?_, fun ts => ?_⟩
  · have h := main ts ['1'] (by decide) (by decide)
    rw [show digitsVal ['1'] = 1 from by decide, listMul_one] at h
    exact h
  · have h := main ts ['0'] (by decide) (by decide)
    exact h

/-- Witness for C4 at a concrete input. -/
theorem resolveRepeats_expands_witness :
    resolveRepeats (["A:maj".data] ++ ['x' :: "2".data]) =
      some (listMul ["A:maj".data] (digitsVal "2".data)) :=
  resolveRepeats_expands.1 ["A:maj".data] "2".data (by decide) (by decide)

/-- C5: `clean_labels` is exactly the three spec steps in order (strip
hyphens/spaces, collapse a listed leading token, rewrite `modulation`), with
the four spec examples. -/
theorem cleanLabels_spec :
    (∀ l : Str, cleanLabels l =
      labelStepModulation (labelStepCollapse (labelStepStrip l))) ∧
    cleanLabels "chorus-2".data = "chorus".data ∧
    cleanLabels "verse".data = "verse".data ∧
    cleanLabels "modulation".data = "keychange".data ∧
    cleanLabels "outro".data = "outro".data :=
  ⟨fun _ => rfl, by decide, by decide, by decide, by decide⟩

/-- C1 fails on the code: this document parses successfully yet returns
`chord_seq = []` against `label_seq = ['eos']` — the assembly loop has no
guard for a retained section with zero tokens. -/
theorem processSalami_misaligned :
    processSalami "f".data "0.0\tverse, x0\n1.0\tend\n".data =
      some ([("url".data, "f".data)], [], ["eos".data]) ∧
    ¬ ([] : List Str).length = (["eos".data] : List Str).length := by
  exact ⟨by decide, by decide⟩

/-- C2 fails on the code: the retained zero-token section `verse` is kept by
the assembler and contributes one `'eos'` to the label sequence instead of
nothing. -/
theorem assembler_keeps_empty_section :
    retainedPairs doc0Lines = some [("verse".data, [])] ∧
    assemble [("verse".data, ([] : List Str))] = ([], ["eos".data]) := by
  exact ⟨by decide, by decide⟩

lemma lookupKey_dictInsert (m : List (Str × Str)) (k v : Str) :
    lookupKey (dictInsert m k v) k = some v := by
  unfold dictInsert
  by_cases h : m.any (fun p => p.1 == k)
  · rw [if_pos h]
    induction m with
    | nil => simp at h
    | cons p t ih =>
      by_cases hp : p.1 = k
      · simp [lookupKey, List.find?_cons_of_pos, hp]
      · have hb : (p.1 == k) = false := by simp [hp]
        have ht : t.any (fun q => q.1 == k) = true := by
          simpa [List.any_cons, hb] using h
        have := ih ht
        simpa [lookupKey, List.map_cons, if_neg hp,
               List.find?_cons_of_neg, hb] using this
  · rw [if_neg h]
    have hnone : m.find? (fun p => p.1 == k) = none := by
      rw [List.find?_eq_none]
      intro x hx hbeq
      exact h (List.any_eq_true.2 ⟨x, hx, hbeq⟩)
    simp [lookupKey, List.find?_append, hnone, List.find?_cons_of_pos]

/-- C6 counterexample: the header key of `'# title : Foo'` keeps its trailing
space (only leading `'#'` and `' '` are stripped), so the mapping holds
`'title '`, not the trimmed `'title'`. -/
theorem header_key_keeps_trailing_space :
    headersOf "f".data docHLines =
      some [("title ".data, "Foo".data), ("url".data, "f".data)] ∧
    lookupKey [("title ".data, "Foo".data), ("url".data, "f".data)]
      "title".data = none := by
  exact ⟨by decide, by decide⟩

/-- C6 amended: for a comment line whose stripped form contains `':'`, the
key is the text before the first `':'` after removing leading `'#'`/`' '`
characters only (no trailing trim), the value is the trimmed remainder, and
the final mapping's `url` entry always is the document path. -/
theorem header_extractor_amended :
    (∀ line k v, parseHeaderLine line = some (k, v) →
      ∃ raw, lstripHashSpace line = k ++ ':' :: raw ∧
        (∀ c ∈ k, c ≠ ':') ∧ v = pyStrip raw) ∧
    (∀ fname lines hs, headersOf fname lines = some hs →
      lookupKey hs "url".data = some fname) := by
  constructor
  · intro line k v h
    simp only [parseHeaderLine] at h
    split at h
    · exact Option.noConfusion h
    next hne =>
      rw [Option.some.injEq, Prod.mk.injEq] at h
      obtain ⟨hk, hv⟩ := h
      subst hk
      subst hv
      have hrest : (lstripHashSpace line).dropWhile (fun c => c != ':') ≠ [] := by
        simpa using hne
      have hhead :
          ((lstripHashSpace line).dropWhile (fun c => c != ':')).head hrest = ':' := by
        have hh := List.head_dropWhile_not (fun c => c != ':')
          (lstripHashSpace line) hrest
        simpa using hh
      refine ⟨((lstripHashSpace line).dropWhile (fun c => c != ':')).tail,
        ?_, ?_, ?_⟩
      · have h2 : (lstripHashSpace line).dropWhile (fun c => c != ':') =
            ':' :: ((lstripHashSpace line).dropWhile (fun c => c != ':')).tail := by
          conv_lhs => rw [← List.head_cons_tail _ hrest]
          rw [hhead]
        conv_lhs => rw [← List.takeWhile_append_dropWhile
          (fun c => c != ':') (lstripHashSpace line), h2]
      · intro c hc
        simpa using List.mem_takeWhile_imp hc
      · rw [List.drop_one]
  · intro fname lines hs h
    unfold headersOf at h
    cases hp : headerPairs lines <;> rw [hp] at h
    · exact Option.noConfusion h
    case some ps =>
      injection h with h1
      rw [← h1]
      exact lookupKey_dictInsert (dictOf ps) "url".data fname

/-- Witness for C6 at a concrete header line and document. -/
theorem header_extractor_amended_witness :
    (∃ raw, lstripHashSpace "# title : Foo".data =
        "title ".data ++ ':' :: raw ∧
      (∀ c ∈ ("title ".data : Str), c ≠ ':') ∧ "Foo".data = pyStrip raw) ∧
    lookupKey [("title ".data, "Foo".data), ("url".data, "f".data)]
      "url".data = some "f".data :=
  ⟨header_extractor_amended.1 "# title : Foo".data "title ".data "Foo".data
      (by decide),
   header_extractor_amended.2 "f".data docHLines
      [("title ".data, "Foo".data), ("url".data, "f".data)] (by decide)⟩

/-- C9: a document with at least one segmented section, all of whose
normalized labels are empty, aborts the parse: the empty-label filter leaves
nothing, so `zip(*lab_n_chords)` raises instead of returning an empty song. -/
theorem allEmptyLabels_aborts (fname : Str) (lines : List Str)
    (hne : sectionsOf lines ≠ [])
    (hall : ∀ p ∈ sectionsOf lines, cleanLabels p.1 = []) :
    processLines fname lines = none := by
  unfold processLines
  cases hh : headersOf fname lines with
  | none => rfl
  | some hdrs =>
    cases hsec : sectionsOf lines with
    | nil => exact absurd hsec hne
    | cons s ss =>
      cases hrp : retainedPairs lines with
      | none => rfl
      | some pairs =>
        cases hpp : pairs with
        | nil => rfl
        | cons p ps =>
          exfalso
          subst hpp
          simp only [retainedPairs] at hrp
          cases hm : mapMOpt (fun s => sectionFlatTokens s.2) (sectionsOf lines) with
          | none => rw [hm] at hrp; exact Option.noConfusion hrp
          | some toks =>
            rw [hm, Option.some.injEq] at hrp
            have hpmem : p ∈ (((sectionsOf lines).map
                (fun s => cleanLabels s.1)).zip toks).filter
                  (fun p => decide (p.1 ≠ [])) := by
              rw [hrp]
              exact List.mem_cons_self _ _
            obtain ⟨hzip, hpred⟩ := List.mem_filter.1 hpmem
            obtain ⟨a, b⟩ := p
            have ha : a ∈ (sectionsOf lines).map (fun s => cleanLabels s.1) :=
              (List.of_mem_zip hzip).1
            obtain ⟨s', hs', hcl⟩ := List.mem_map.1 ha
            have : a ≠ [] := by simpa using hpred
            exact this (hcl ▸ hall s' hs')

/-- Witness for C9: the single section of `docELines` has raw label `-`,
which normalizes to the empty string, and the parse aborts. -/
theorem allEmptyLabels_aborts_witness :
    processLines "f".data docELines = none :=
  allEmptyLabels_aborts "f".data docELines (by decide) (by decide)

lemma assemble_count_eos (pairs : List (Str × List Str))
    (h : ∀ p ∈ pairs, p.1 ≠ "eos".data) :
    (assemble pairs).2.count "eos".data = pairs.length := by
  induction pairs with
  | nil => rfl
  | cons p rest ih =>
    obtain ⟨lab, cs⟩ := p
    have hlab : lab ≠ "eos".data := h (lab, cs) (List.mem_cons_self _ _)
    have ihh := ih (fun q hq => h q (List.mem_cons_of_mem _ hq))
    simp [assemble, List.count_append, listMul_singleton,
          List.count_replicate, hlab, ihh, List.count_cons]

lemma assemble_label_mem (pairs : List (Str × List Str)) (l : Str)
    (hl : l ∈ (assemble pairs).2) :
    l = "eos".data ∨ ∃ p ∈ pairs, p.1 = l := by
  induction pairs with
  | nil => simp [assemble] at hl
  | cons p rest ih =>
    obtain ⟨lab, cs⟩ := p
    simp only [assemble, List.mem_append] at hl
    rcases hl with (hm | he) | h2
    · rw [listMul_singleton] at hm
      exact Or.inr ⟨(lab, cs), List.mem_cons_self _ _,
        (List.eq_of_mem_replicate hm).symm⟩
    · exact Or.inl (List.mem_singleton.1 he)
    · rcases ih h2 with h | ⟨q, hq, hql⟩
      · exact Or.inl h
      · exact Or.inr ⟨q, List.mem_cons_of_mem _ hq, hql⟩

lemma processLines_some (fname : Str) (lines : List Str)
    (hs : List (Str × Str)) (cs ls : List Str)
    (h : processLines fname lines = some (hs, cs, ls)) :
    ∃ pairs, retainedPairs lines = some pairs ∧ pairs ≠ [] ∧
      cs = (assemble pairs).1 ∧ ls = (assemble pairs).2 := by
  unfold processLines at h
  cases hh : headersOf fname lines <;> rw [hh] at h
  · exact Option.noConfusion h
  next hdrs =>
    cases hsec : sectionsOf lines <;> rw [hsec] at h
    · exact Option.noConfusion h
    next s ss =>
      cases hrp : retainedPairs lines <;> rw [hrp] at h
      · exact Option.noConfusion h
      next pairs =>
        cases pairs with
        | nil => exact Option.noConfusion h
        | cons p ps =>
          rw [Option.some.injEq, Prod.mk.injEq, Prod.mk.injEq] at h
          exact ⟨p :: ps, rfl, by simp, h.2.1.symm, h.2.2.symm⟩

/-- C10 amended: in a successfully parsed song, if no retained section's
normalized label is itself `'eos'`, the number of `'eos'` markers in
`label_seq` equals the number of retained sections; unconditionally, every
non-`'eos'` entry of `label_seq` is the normalized label of some retained
section. -/
theorem label_seq_eos_runs (fname : Str) (lines : List Str)
    (hs : List (Str × Str)) (cs ls : List Str)
    (pairs : List (Str × List Str))
    (h : processLines fname lines = some (hs, cs, ls))
    (hrp : retainedPairs lines = some pairs) :
    ((∀ p ∈ pairs, p.1 ≠ "eos".data) →
      ls.count "eos".data = pairs.length) ∧
    (∀ l ∈ ls, l ≠ "eos".data → ∃ p ∈ pairs, p.1 = l) := by
  obtain ⟨pairs2, hrp2, hne, hcs, hls⟩ :=
    processLines_some fname lines hs cs ls h
  rw [hrp] at hrp2
  rw [Option.some.injEq] at hrp2
  subst hrp2
  subst hls
  constructor
  · intro hno
    exact assemble_count_eos _ hno
  · intro l hl hlne
    rcases assemble_label_mem _ l hl with he | hex
    · exact absurd he hlne
    · exact hex

/-- C10 counterexample: a section whose normalized label is the literal
`eos` makes the `'eos'` count exceed the section count. -/
theorem eos_label_breaks_eos_count :
    processLines "f".data doc10Lines =
      some ([("url".data, "f".data)],
        ["C:maj".data, "D:min".data], ["eos".data, "eos".data]) ∧
    retainedPairs doc10Lines =
      some [("eos".data, ["C:maj".data, "D:min".data])] ∧
    ¬ ((["eos".data, "eos".data] : List Str).count "eos".data =
        ([("eos".data, ["C:maj".data, "D:min".data])] :
          List (Str × List Str)).length) := by
  exact ⟨by decide, by decide, by decide⟩

/-- Witness for C10 at a concrete one-section document. -/
theorem label_seq_eos_runs_witness :
    (["verse".data, "eos".data] : List Str).count "eos".data =
      ([("verse".data, ["C:maj".data, "D:min".data])] :
        List (Str × List Str)).length := by
  have h := label_seq_eos_runs "f".data docWLines
      [("url".data, "f".data)] ["C:maj".data, "D:min".data]
      ["verse".data, "eos".data]
      [("verse".data, ["C:maj".data, "D:min".data])] (by decide) (by decide)
  exact h.1 (by decide)

lemma sectionsGo_flatten_sublist (lines : List Str) :
    ∀ cur : Option (Str × List Str),
      ((sectionsGo cur lines).map Prod.snd).flatten.Sublist
        (((emitOf cur).map Prod.snd).flatten ++ lines) := by
  induction lines with
  | nil =>
    intro cur
    simp [sectionsGo]
  | cons l rest ih =>
    intro cur
    simp only [sectionsGo]
    by_cases hla : lookaheadMatch l
    · rw [if_pos hla]
      rw [List.map_append, List.flatten_append]
      have hrec :
          ((sectionsGo (openOf l) rest).map Prod.snd).flatten.Sublist (l :: rest) := by
        unfold openOf
        cases hsm : startMatch l with
        | none =>
          have h := ih none
          simp only [emitOf, List.map_nil, List.flatten_nil,
            List.nil_append] at h
          exact h.trans (List.sublist_cons_self l rest)
        | some lab2 =>
          have h := ih (some (lab2, [l]))
          simp only [emitOf, List.map_cons, List.map_nil, List.flatten_cons,
            List.flatten_nil, List.append_nil, List.singleton_append] at h
          exact h
      have := hrec.append_left (((emitOf cur).map Prod.snd).flatten)
      simpa using this
    · rw [if_neg hla]
      have h := ih (extendCur l cur)
      cases cur with
      | none =>
        simp only [extendCur, emitOf, List.map_nil, List.flatten_nil,
          List.nil_append] at h ⊢
        exact h.trans (List.sublist_cons_self l rest)
      | some s =>
        simp only [extendCur, emitOf, List.map_cons, List.map_nil,
          List.flatten_cons, List.flatten_nil, List.append_nil] at h ⊢
        rw [List.append_assoc] at h
        simpa using h

/-- C3 counterexample: a two-section document whose final section-starting
line has no later section-like line.  The regex lookahead never succeeds for
the second match, so only the first section is returned — the final section
is dropped, against the claim that it is included up to end of document.
The emitted group also contains the section-starting line itself. -/
theorem final_section_dropped :
    sectionsOf doc3Lines =
      [("verse".data, ["0.0\tA, verse, C:maj".data])] ∧
    startMatch "1.0\tB, chorus, D:min".data = some "chorus".data ∧
    ∀ p ∈ sectionsOf doc3Lines, p.1 ≠ "chorus".data := by
  exact ⟨by decide, by decide, by decide⟩

lemma labelAfterTab_isEmpty (s lab : Str) (h : labelAfterTab s = some lab) :
    ((dropVariantMarker s).takeWhile lowerHyphen).isEmpty = false := by
  simp only [labelAfterTab] at h
  split at h
  · exact Option.noConfusion h
  next hne => exact Bool.eq_false_iff.mpr hne

lemma lookahead_of_startMatch :
    ∀ (l lab : Str), startMatch l = some lab → lookaheadMatch l = true := by
  intro l
  induction l with
  | nil => intro lab h; exact Option.noConfusion h
  | cons c rest ih =>
    intro lab h
    simp only [startMatch] at h
    simp only [lookaheadMatch]
    split at h
    next hc =>
      cases hsm : startMatch rest with
      | some lab2 =>
        rw [ih lab2 hsm]
        simp
      | none =>
        rw [hsm] at h
        have hla2 : labelAfterTab rest = some lab := h
        rw [hc, labelAfterTab_isEmpty rest lab hla2]
        simp
    next hc =>
      rw [ih lab h]
      simp

lemma firstLookahead_none :
    ∀ ls : List Str, firstLookahead ls = none →
      ∀ x ∈ ls, lookaheadMatch x = false := by
  intro ls
  induction ls with
  | nil => intro _ x hx; simp at hx
  | cons l rest ih =>
    intro h x hx
    simp only [firstLookahead] at h
    split at h
    · exact Option.noConfusion h
    next hla =>
      rcases List.mem_cons.1 hx with h1 | h2
      · subst h1
        exact Bool.eq_false_iff.mpr hla
      · cases hfl : firstLookahead rest with
        | some k =>
          rw [hfl] at h
          exact Option.noConfusion h
        | none => exact ih hfl x h2

lemma firstLookahead_some :
    ∀ (ls : List Str) (k : Nat), firstLookahead ls = some k →
      (∃ l, ls[k]? = some l ∧ lookaheadMatch l = true) ∧
      ∀ x ∈ ls.take k, lookaheadMatch x = false := by
  intro ls
  induction ls with
  | nil => intro k h; exact Option.noConfusion h
  | cons l rest ih =>
    intro k h
    simp only [firstLookahead] at h
    split at h
    next hla =>
      rw [Option.some.injEq] at h
      subst h
      refine ⟨⟨l, by simp, hla⟩, ?_⟩
      intro x hx
      simp at hx
    next hla =>
      cases hfl : firstLookahead rest with
      | none =>
        rw [hfl] at h
        exact Option.noConfusion h
      | some k2 =>
        rw [hfl] at h
        have hk : k2 + 1 = k := by simpa using h
        subst hk
        obtain ⟨⟨l2, hget, hl2⟩, htake⟩ := ih k2 hfl
        constructor
        · exact ⟨l2, by rw [List.getElem?_cons_succ]; exact hget, hl2⟩
        · intro x hx
          rw [List.take_succ_cons] at hx
          rcases List.mem_cons.1 hx with h1 | h2
          · subst h1
            exact Bool.eq_false_iff.mpr hla
          · exact htake x h2

lemma sectionsGo_none_no_lookahead :
    ∀ lines : List Str, (∀ x ∈ lines, lookaheadMatch x = false) →
      sectionsGo none lines = [] := by
  intro lines
  induction lines with
  | nil => intro _; rfl
  | cons l rest ih =>
    intro h
    have hl : lookaheadMatch l = false := h l (List.mem_cons_self _ _)
    have hgo : sectionsGo none (l :: rest) = sectionsGo none rest := by
      simp [sectionsGo, hl, extendCur]
    rw [hgo]
    exact ih (fun x hx => h x (List.mem_cons_of_mem _ hx))

lemma sectionsGo_open :
    ∀ (lines : List Str) (lab : Str) (grp : List Str),
      sectionsGo (some (lab, grp)) lines =
        match firstLookahead lines with
        | some k => (lab, grp ++ lines.take k) :: sectionsGo none (lines.drop k)
        | none => [] := by
  intro lines
  induction lines with
  | nil => intro lab grp; rfl
  | cons l rest ih =>
    intro lab grp
    by_cases hla : lookaheadMatch l = true
    · have hfl0 : firstLookahead (l :: rest) = some 0 := by
        simp [firstLookahead, hla]
      rw [hfl0]
      show sectionsGo (some (lab, grp)) (l :: rest) =
        (lab, grp ++ (l :: rest).take 0) :: sectionsGo none ((l :: rest).drop 0)
      simp [sectionsGo, hla, emitOf]
    · have hla' : lookaheadMatch l = false := Bool.eq_false_iff.mpr hla
      have hflc : firstLookahead (l :: rest) =
          (firstLookahead rest).map (· + 1) := by
        simp [firstLookahead, hla']
      rw [hflc]
      have hgo : sectionsGo (some (lab, grp)) (l :: rest) =
          sectionsGo (some (lab, grp ++ [l])) rest := by
        simp [sectionsGo, hla', extendCur]
      rw [hgo, ih lab (grp ++ [l])]
      cases hfl : firstLookahead rest with
      | none => rfl
      | some k =>
        show (lab, (grp ++ [l]) ++ rest.take k) :: sectionsGo none (rest.drop k) =
          (lab, grp ++ (l :: rest).take (k + 1)) ::
            sectionsGo none ((l :: rest).drop (k + 1))
        rw [List.take_succ_cons, List.drop_succ_cons]
        simp [List.append_assoc]

lemma sectionsGo_none_eq_spec :
    ∀ (n : Nat) (lines : List Str), lines.length ≤ n →
      sectionsGo none lines = sectionsSpec lines := by
  intro n
  induction n with
  | zero =>
    intro lines hn
    have hl : lines = [] := List.length_eq_zero.1 (Nat.le_zero.1 hn)
    subst hl
    rw [sectionsSpec]
    rfl
  | succ n ih =>
    intro lines hn
    cases lines with
    | nil =>
      rw [sectionsSpec]
      rfl
    | cons l rest =>
      have hrest : rest.length ≤ n := by
        simp only [List.length_cons] at hn
        omega
      by_cases hla : lookaheadMatch l = true
      · have hgo : sectionsGo none (l :: rest) = sectionsGo (openOf l) rest := by
          simp [sectionsGo, hla, emitOf]
        rw [hgo]
        cases hsm : startMatch l with
        | some lab =>
          have hopen : openOf l = some (lab, [l]) := by simp [openOf, hsm]
          rw [hopen, sectionsGo_open rest lab [l]]
          cases hfl : firstLookahead rest with
          | some k =>
            rw [sectionsSpec, hsm, hfl]
            show (lab, [l] ++ rest.take k) :: sectionsGo none (rest.drop k) =
              (lab, l :: rest.take k) :: sectionsSpec (rest.drop k)
            rw [ih (rest.drop k) (by
              simp only [List.length_drop]
              omega)]
            rfl
          | none =>
            rw [sectionsSpec, hsm, hfl]
            show ([] : List (Str × List Str)) = sectionsSpec rest
            rw [← ih rest hrest]
            exact
              (sectionsGo_none_no_lookahead rest (firstLookahead_none rest hfl)).symm
        | none =>
          have hopen : openOf l = none := by simp [openOf, hsm]
          rw [hopen, ih rest hrest, sectionsSpec, hsm]
      · have hla' : lookaheadMatch l = false := Bool.eq_false_iff.mpr hla
        have hsm : startMatch l = none := by
          cases hsm2 : startMatch l with
          | none => rfl
          | some lab =>
            have hcontra := lookahead_of_startMatch l lab hsm2
            rw [hla'] at hcontra
            exact Bool.noConfusion hcontra
        have hgo : sectionsGo none (l :: rest) = sectionsGo none rest := by
          simp [sectionsGo, hla', extendCur]
        rw [hgo, ih rest hrest, sectionsSpec, hsm]

/-- C3 amended: on every document, the segmentation `sectionsOf` equals the
rule `sectionsSpec` stated from the corrected claim — each emitted section
is its section-starting line plus every following line up to (but
excluding) the first later lookahead-matching line, a section is emitted
exactly when such a later section-like line exists (`firstLookahead rest`
is `some k`; otherwise, in particular for a final section with nothing
section-like after it, no section is emitted), and scanning resumes at the
terminating line, making the sections disjoint contiguous segments in
document order.  The second and third conjuncts pin `firstLookahead` down:
a returned index carries a lookahead-matching line and everything before it
matches nothing, and `none` means no line of the group matches.  The last
conjunct makes the in-order disjointness explicit: the concatenated line
groups form a sublist of the document's lines. -/
theorem sectionsOf_amended :
    (∀ lines : List Str, sectionsOf lines = sectionsSpec lines) ∧
    (∀ (ls : List Str) (k : Nat), firstLookahead ls = some k →
      (∃ l, ls[k]? = some l ∧ lookaheadMatch l = true) ∧
      ∀ x ∈ ls.take k, lookaheadMatch x = false) ∧
    (∀ ls : List Str, firstLookahead ls = none →
      ∀ x ∈ ls, lookaheadMatch x = false) ∧
    (∀ lines : List Str,
      ((sectionsOf lines).map Prod.snd).flatten.Sublist lines) := by
  refine ⟨fun lines => sectionsGo_none_eq_spec lines.length lines le_rfl,
    fun ls k h => firstLookahead_some ls k h,
    fun ls h x hx => firstLookahead_none ls h x hx,
    fun lines => by simpa [emitOf] using sectionsGo_flatten_sublist lines none⟩

/-- Witness for C3: in `docHLines` the first section-like line is at index 1
(the header line at index 0 matches no lookahead). -/
theorem sectionsOf_amended_witness :
    (∃ l, docHLines[1]? = some l ∧ lookaheadMatch l = true) ∧
    ∀ x ∈ docHLines.take 1, lookaheadMatch x = false :=
  sectionsOf_amended.2.1 docHLines 1 (by decide)

lemma all_takeWhile (p : Char → Bool) (l : Str) :
    (l.takeWhile p).all p = true :=
  List.all_eq_true.2 fun _ hx => List.mem_takeWhile_imp hx

lemma isPrefixOf_exists (l₁ : Str) :
    ∀ l₂ : Str, l₁.isPrefixOf l₂ = true → ∃ s, l₂ = l₁ ++ s := by
  induction l₁ with
  | nil => exact fun l₂ _ => ⟨l₂, rfl⟩
  | cons a t ih =>
    intro l₂ h
    cases l₂ with
    | nil => simp [List.isPrefixOf] at h
    | cons b t2 =>
      simp only [List.isPrefixOf, Bool.and_eq_true, beq_iff_eq] at h
      obtain ⟨hab, ht⟩ := h
      obtain ⟨s, hs⟩ := ih t2 ht
      exact ⟨s, by rw [hab, hs]; rfl⟩

lemma isPrefixOf_append (l₁ s : Str) : l₁.isPrefixOf (l₁ ++ s) = true := by
  induction l₁ with
  | nil => simp [List.isPrefixOf]
  | cons a t ih => simp [List.isPrefixOf, ih]

lemma head?_dropWhile_not (p : Char → Bool) :
    ∀ (l : Str) (a : Char), (l.dropWhile p).head? = some a → p a = false := by
  intro l
  induction l with
  | nil => intro a h; simp at h
  | cons b tl ih =>
    intro a h
    by_cases hp : p b
    · rw [List.dropWhile_cons_of_pos hp] at h
      exact ih a h
    · rw [List.dropWhile_cons_of_neg hp] at h
      rw [List.head?_cons, Option.some.injEq] at h
      subst h
      simpa using hp

lemma takeWhile_append_not_empty (p : Char → Bool) (run r : Str)
    (hne : run ≠ []) (hall : run.all p = true) :
    ((run ++ r).takeWhile p).isEmpty = false := by
  cases run with
  | nil => exact absurd rfl hne
  | cons a s =>
    have hp : p a = true := by
      rw [List.all_cons, Bool.and_eq_true] at hall
      exact hall.1
    simp [List.takeWhile_cons, hp]

lemma chordTail_append (rest tl r : Str) (h : chordTail rest = some (tl, r)) :
    rest = tl ++ r ∧ tl ≠ [] := by
  cases rest with
  | nil => exact Option.noConfusion h
  | cons d rest2 =>
    simp only [chordTail] at h
    split at h
    next hb =>
      split at h
      · exact Option.noConfusion h
      next e r3 =>
        split at h
        next he =>
          split at h
          · exact Option.noConfusion h
          next hrun =>
            rw [Option.some.injEq, Prod.mk.injEq] at h
            obtain ⟨h1, h2⟩ := h
            have he' : e = ':' := by simpa using he
            subst he'
            refine ⟨?_, by rw [← h1]; simp⟩
            rw [← h1, ← h2]
            simp [List.takeWhile_append_dropWhile]
        · exact Option.noConfusion h
    next hb =>
      split at h
      next hd =>
        split at h
        · exact Option.noConfusion h
        next hrun =>
          rw [Option.some.injEq, Prod.mk.injEq] at h
          obtain ⟨h1, h2⟩ := h
          have hd' : d = ':' := by simpa using hd
          subst hd'
          refine ⟨?_, by rw [← h1]; simp⟩
          rw [← h1, ← h2]
          simp [List.takeWhile_append_dropWhile]
      · exact Option.noConfusion h

lemma chordTail_shape (rest tl r : Str) (h : chordTail rest = some (tl, r)) :
    (∃ run, tl = ':' :: run ∧ run ≠ [] ∧ run.all isNonSpace = true ∧
      ∀ a, r.head? = some a → isNonSpace a = false) ∨
    (∃ d run, tl = d :: ':' :: run ∧ (d == '#' || d == 'b') = true ∧
      run ≠ [] ∧ run.all isNonSpace = true ∧
      ∀ a, r.head? = some a → isNonSpace a = false) := by
  cases rest with
  | nil => exact Option.noConfusion h
  | cons d rest2 =>
    simp only [chordTail] at h
    split at h
    next hb =>
      split at h
      · exact Option.noConfusion h
      next e r3 =>
        split at h
        next he =>
          split at h
          · exact Option.noConfusion h
          next hrun =>
            rw [Option.some.injEq, Prod.mk.injEq] at h
            obtain ⟨h1, h2⟩ := h
            refine Or.inr ⟨d, r3.takeWhile isNonSpace, h1.symm, hb, ?_, ?_, ?_⟩
            · simpa using hrun
            · exact all_takeWhile _ _
            · intro a ha
              rw [← h2] at ha
              exact head?_dropWhile_not _ _ _ ha
        · exact Option.noConfusion h
    next hb =>
      split at h
      next hd =>
        split at h
        · exact Option.noConfusion h
        next hrun =>
          rw [Option.some.injEq, Prod.mk.injEq] at h
          obtain ⟨h1, h2⟩ := h
          refine Or.inl ⟨rest2.takeWhile isNonSpace, h1.symm, ?_, ?_, ?_⟩
          · simpa using hrun
          · exact all_takeWhile _ _
          · intro a ha
            rw [← h2] at ha
            exact head?_dropWhile_not _ _ _ ha
      · exact Option.noConfusion h

lemma matchSymbolAt_append (cs t r : Str) (h : matchSymbolAt cs = some (t, r)) :
    cs = t ++ r ∧ t ≠ [] := by
  cases cs with
  | nil => exact Option.noConfusion h
  | cons c rest =>
    simp only [matchSymbolAt] at h
    split at h
    next hag =>
      split at h
      next tl rr hct =>
        rw [Option.some.injEq, Prod.mk.injEq] at h
        obtain ⟨h1, h2⟩ := h
        obtain ⟨he, hne⟩ := chordTail_append rest tl rr hct
        refine ⟨?_, by rw [← h1]; simp⟩
        rw [← h1, ← h2, he]
        rfl
      · exact Option.noConfusion h
    next hag =>
      split at h
      next hstar =>
        rw [Option.some.injEq, Prod.mk.injEq] at h
        obtain ⟨h1, h2⟩ := h
        have hc : c = '*' := by simpa using hstar
        subst hc
        rw [← h1, ← h2]
        exact ⟨rfl, by simp⟩
      next hstar =>
        split at h
        next hamp =>
          split at h
          next hpre =>
            rw [Option.some.injEq, Prod.mk.injEq] at h
            obtain ⟨h1, h2⟩ := h
            have hc : c = '&' := by simpa using hamp
            subst hc
            obtain ⟨s, hs⟩ := isPrefixOf_exists "pause".data rest hpre
            have hdrop : rest.drop 5 = s := by
              rw [hs]
              exact List.drop_left "pause".data s
            refine ⟨?_, by rw [← h1]; simp⟩
            rw [← h1, ← h2, hdrop, hs]
            rfl
          · exact Option.noConfusion h
        next hamp =>
          split at h
          next hx =>
            split at h
            · exact Option.noConfusion h
            next hds =>
              rw [Option.some.injEq, Prod.mk.injEq] at h
              obtain ⟨h1, h2⟩ := h
              have hc : c = 'x' := by simpa using hx
              subst hc
              refine ⟨?_, by rw [← h1]; simp⟩
              rw [← h1, ← h2]
              simp [List.takeWhile_append_dropWhile]
          next hx =>
            split at h
            next hn =>
              rw [Option.some.injEq, Prod.mk.injEq] at h
              obtain ⟨h1, h2⟩ := h
              have hc : c = 'N' := by simpa using hn
              subst hc
              rw [← h1, ← h2]
              exact ⟨rfl, by simp⟩
            · exact Option.noConfusion h

lemma matchSymbolAt_valid (cs t r : Str) (h : matchSymbolAt cs = some (t, r)) :
    isValidSymbol t = true := by
  cases cs with
  | nil => exact Option.noConfusion h
  | cons c rest =>
    simp only [matchSymbolAt] at h
    split at h
    next hag =>
      split at h
      next tl rr hct =>
        rw [Option.some.injEq, Prod.mk.injEq] at h
        obtain ⟨h1, h2⟩ := h
        rcases chordTail_shape rest tl rr hct with
          ⟨run, htl, hrne, hrall, _⟩ | ⟨d, run, htl, hdb, hrne, hrall, _⟩
        · have hre : run.isEmpty = false := by
            cases run with
            | nil => exact absurd rfl hrne
            | cons a b => rfl
          rw [← h1, htl]
          simp [isValidSymbol, isChordSym, colonRun, hag, hre, hrall]
        · have hre : run.isEmpty = false := by
            cases run with
            | nil => exact absurd rfl hrne
            | cons a b => rfl
          rw [← h1, htl]
          simp [isValidSymbol, isChordSym, colonRun, hag, hdb, hre, hrall]
      · exact Option.noConfusion h
    next hag =>
      split at h
      next hstar =>
        rw [Option.some.injEq, Prod.mk.injEq] at h
        rw [← h.1]
        decide
      next hstar =>
        split at h
        next hamp =>
          split at h
          next hpre =>
            rw [Option.some.injEq, Prod.mk.injEq] at h
            rw [← h.1]
            decide
          · exact Option.noConfusion h
        next hamp =>
          split at h
          next hx =>
            split at h
            · exact Option.noConfusion h
            next hds =>
              rw [Option.some.injEq, Prod.mk.injEq] at h
              obtain ⟨h1, h2⟩ := h
              rw [← h1]
              have hall := all_takeWhile isDigitCh rest
              have hne : (rest.takeWhile isDigitCh).isEmpty = false :=
                Bool.eq_false_iff.mpr hds
              have hag2 : isAG 'x' = false := by decide
              simp [isValidSymbol, isRepMark, isChordSym, hag2, hall, hne]
          next hx =>
            split at h
            next hn =>
              rw [Option.some.injEq, Prod.mk.injEq] at h
              rw [← h.1]
              decide
            · exact Option.noConfusion h

lemma colonRun_inv (s : Str) (h : colonRun s = true) :
    ∃ run, s = ':' :: run ∧ run ≠ [] ∧ run.all isNonSpace = true := by
  cases s with
  | nil => simp [colonRun] at h
  | cons e rest =>
    simp only [colonRun, Bool.and_eq_true, beq_iff_eq] at h
    obtain ⟨⟨he, hne⟩, hall⟩ := h
    exact ⟨rest, by rw [he], by simpa using hne, hall⟩

lemma isValidSymbol_inv (t : Str) (h : isValidSymbol t = true) :
    (∃ c run, t = c :: ':' :: run ∧ isAG c = true ∧ run ≠ [] ∧
      run.all isNonSpace = true) ∨
    (∃ c d run, t = c :: d :: ':' :: run ∧ isAG c = true ∧
      (d == '#' || d == 'b') = true ∧ run ≠ [] ∧
      run.all isNonSpace = true) ∨
    t = ['*'] ∨ t = '&' :: "pause".data ∨
    (∃ ds, t = 'x' :: ds ∧ ds ≠ [] ∧ ds.all isDigitCh = true) ∨
    t = ['N'] := by
  simp only [isValidSymbol, Bool.or_eq_true, beq_iff_eq] at h
  rcases h with ((((hc | hstar) | hpause) | hrep) | hn)
  · cases t with
    | nil => simp [isChordSym] at hc
    | cons c rest =>
      simp only [isChordSym, Bool.and_eq_true, Bool.or_eq_true] at hc
      obtain ⟨hag, hcr | hm⟩ := hc
      · obtain ⟨run, hrest, hrne, hrall⟩ := colonRun_inv rest hcr
        exact Or.inl ⟨c, run, by rw [hrest], hag, hrne, hrall⟩
      · cases rest with
        | nil => simp at hm
        | cons d rest2 =>
          rw [Bool.and_eq_true] at hm
          obtain ⟨hdb, hcr⟩ := hm
          obtain ⟨run, hrest2, hrne, hrall⟩ := colonRun_inv rest2 hcr
          exact Or.inr (Or.inl ⟨c, d, run, by rw [hrest2], hag, hdb, hrne, hrall⟩)
  · exact Or.inr (Or.inr (Or.inl hstar))
  · exact Or.inr (Or.inr (Or.inr (Or.inl hpause)))
  · cases t with
    | nil => simp [isRepMark] at hrep
    | cons c ds =>
      simp only [isRepMark, Bool.and_eq_true, beq_iff_eq] at hrep
      obtain ⟨⟨hcx, hne⟩, hall⟩ := hrep
      exact Or.inr (Or.inr (Or.inr (Or.inr (Or.inl
        ⟨ds, by rw [hcx], by simpa using hne, hall⟩))))
  · exact Or.inr (Or.inr (Or.inr (Or.inr (Or.inr hn))))

lemma matchSymbolAt_none (cs : Str) (h : matchSymbolAt cs = none) :
    ∀ t r : Str, t ≠ [] → cs = t ++ r → isValidSymbol t = false := by
  intro t r htne hcs
  by_contra hval
  rw [Bool.not_eq_false] at hval
  subst hcs
  rcases isValidSymbol_inv t hval with
    ⟨c, run, ht, hag, hrne, hrall⟩ | ⟨c, d, run, ht, hag, hdb, hrne, hrall⟩ |
    ht | ht | ⟨ds, ht, hdne, hdall⟩ | ht
  · subst ht
    simp only [List.cons_append] at h
    simp only [matchSymbolAt] at h
    rw [if_pos hag] at h
    have hct : chordTail (':' :: (run ++ r)) =
        some (':' :: (run ++ r).takeWhile isNonSpace,
          (run ++ r).dropWhile isNonSpace) := by
      simp only [chordTail]
      rw [if_neg (by decide), if_pos (by decide), if_neg (by
        rw [takeWhile_append_not_empty isNonSpace run r hrne hrall]
        simp)]
    rw [hct] at h
    exact Option.noConfusion h
  · subst ht
    simp only [List.cons_append] at h
    simp only [matchSymbolAt] at h
    rw [if_pos hag] at h
    have hct : chordTail (d :: ':' :: (run ++ r)) =
        some (d :: ':' :: (run ++ r).takeWhile isNonSpace,
          (run ++ r).dropWhile isNonSpace) := by
      simp only [chordTail]
      rw [if_pos hdb, if_pos (by decide), if_neg (by
        rw [takeWhile_append_not_empty isNonSpace run r hrne hrall]
        simp)]
    rw [hct] at h
    exact Option.noConfusion h
  · subst ht
    simp only [List.cons_append, List.nil_append] at h
    simp only [matchSymbolAt] at h
    rw [if_neg (by decide), if_pos (by decide)] at h
    exact Option.noConfusion h
  · subst ht
    rw [show ('&' :: "pause".data) ++ r = '&' :: ("pause".data ++ r) from rfl] at h
    simp only [matchSymbolAt] at h
    rw [if_neg (by decide), if_neg (by decide), if_pos (by decide)] at h
    rw [if_pos (isPrefixOf_append "pause".data r)] at h
    exact Option.noConfusion h
  · subst ht
    simp only [List.cons_append] at h
    simp only [matchSymbolAt] at h
    rw [if_neg (by decide), if_neg (by decide), if_neg (by decide),
      if_pos (by decide)] at h
    rw [if_neg (by
      rw [takeWhile_append_not_empty isDigitCh ds r hdne hdall]
      simp)] at h
    exact Option.noConfusion h
  · subst ht
    simp only [List.cons_append, List.nil_append] at h
    simp only [matchSymbolAt] at h
    rw [if_neg (by decide), if_neg (by decide), if_neg (by decide),
      if_neg (by decide), if_pos (by decide)] at h
    exact Option.noConfusion h

lemma validSymbol_chord_ext (c : Char) (run u2 : Str) (a : Char)
    (hnsa : isNonSpace a = false) :
    isValidSymbol (c :: ':' :: (run ++ a :: u2)) = false := by
  by_contra hval
  rw [Bool.not_eq_false] at hval
  rcases isValidSymbol_inv _ hval with
    ⟨c', run', ht, _, _, hall⟩ | ⟨c', d', run', ht, _, hdb, _, _⟩ |
    ht | ht | ⟨ds, ht, _, hall⟩ | ht
  · injection ht with h1 h2
    injection h2 with h3 h4
    rw [← h4, List.all_eq_true] at hall
    have := hall a (by simp)
    rw [hnsa] at this
    exact Bool.noConfusion this
  · injection ht with h1 h2
    injection h2 with h3 h4
    rw [← h3] at hdb
    exact absurd hdb (by decide)
  · injection ht with h1 h2
    exact List.noConfusion h2
  · injection ht with h1 h2
    injection h2 with h3 h4
    exact absurd h3 (by decide)
  · injection ht with h1 h2
    rw [← h2, List.all_cons, Bool.and_eq_true] at hall
    exact absurd hall.1 (by decide)
  · injection ht with h1 h2
    exact List.noConfusion h2

lemma validSymbol_chordb_ext (c d : Char) (run u2 : Str) (a : Char)
    (hdb : (d == '#' || d == 'b') = true) (hnsa : isNonSpace a = false) :
    isValidSymbol (c :: d :: ':' :: (run ++ a :: u2)) = false := by
  by_contra hval
  rw [Bool.not_eq_false] at hval
  rcases isValidSymbol_inv _ hval with
    ⟨c', run', ht, _, _, hall⟩ | ⟨c', d', run', ht, _, _, _, hall⟩ |
    ht | ht | ⟨ds, ht, _, hall⟩ | ht
  · injection ht with h1 h2
    injection h2 with h3 h4
    rw [h3] at hdb
    exact absurd hdb (by decide)
  · injection ht with h1 h2
    injection h2 with h3 h4
    injection h4 with h5 h6
    rw [← h6, List.all_eq_true] at hall
    have := hall a (by simp)
    rw [hnsa] at this
    exact Bool.noConfusion this
  · injection ht with h1 h2
    exact List.noConfusion h2
  · injection ht with h1 h2
    injection h2 with h3 h4
    injection h4 with h5 h6
    exact absurd h5 (by decide)
  · injection ht with h1 h2
    rw [← h2, List.all_cons, Bool.and_eq_true] at hall
    obtain ⟨hd, _⟩ := hall
    rw [Bool.or_eq_true, beq_iff_eq, beq_iff_eq] at hdb
    rcases hdb with hdb | hdb <;> rw [hdb] at hd <;>
      exact absurd hd (by decide)
  · injection ht with h1 h2
    exact List.noConfusion h2

lemma validSymbol_star_ext (u2 : Str) (a : Char) :
    isValidSymbol ('*' :: a :: u2) = false := by
  by_contra hval
  rw [Bool.not_eq_false] at hval
  rcases isValidSymbol_inv _ hval with
    ⟨c', run', ht, hag, _, _⟩ | ⟨c', d', run', ht, hag, _, _, _⟩ |
    ht | ht | ⟨ds, ht, _, _⟩ | ht
  · injection ht with h1 h2
    rw [← h1] at hag
    exact absurd hag (by decide)
  · injection ht with h1 h2
    rw [← h1] at hag
    exact absurd hag (by decide)
  · injection ht with h1 h2
    exact List.noConfusion h2
  · injection ht with h1 h2
    exact absurd h1 (by decide)
  · injection ht with h1 h2
    exact absurd h1 (by decide)
  · injection ht with h1 h2
    exact List.noConfusion h2

lemma validSymbol_pause_ext (u2 : Str) (a : Char) :
    isValidSymbol ('&' :: 'p' :: 'a' :: 'u' :: 's' :: 'e' :: a :: u2) = false := by
  by_contra hval
  rw [Bool.not_eq_false] at hval
  rcases isValidSymbol_inv _ hval with
    ⟨c', run', ht, hag, _, _⟩ | ⟨c', d', run', ht, hag, _, _, _⟩ |
    ht | ht | ⟨ds, ht, _, _⟩ | ht
  · injection ht with h1 h2
    rw [← h1] at hag
    exact absurd hag (by decide)
  · injection ht with h1 h2
    rw [← h1] at hag
    exact absurd hag (by decide)
  · injection ht with h1 h2
    exact List.noConfusion h2
  · injection ht with h1 h2
    injection h2 with h3 h4
    injection h4 with h5 h6
    injection h6 with h7 h8
    injection h8 with h9 h10
    injection h10 with h11 h12
    exact List.noConfusion h12
  · injection ht with h1 h2
    exact absurd h1 (by decide)
  · injection ht with h1 h2
    exact List.noConfusion h2

lemma validSymbol_rep_ext (ds u2 : Str) (a : Char)
    (hda : isDigitCh a = false) :
    isValidSymbol ('x' :: (ds ++ a :: u2)) = false := by
  by_contra hval
  rw [Bool.not_eq_false] at hval
  rcases isValidSymbol_inv _ hval with
    ⟨c', run', ht, hag, _, _⟩ | ⟨c', d', run', ht, hag, _, _, _⟩ |
    ht | ht | ⟨ds', ht, _, hall⟩ | ht
  · injection ht with h1 h2
    rw [← h1] at hag
    exact absurd hag (by decide)
  · injection ht with h1 h2
    rw [← h1] at hag
    exact absurd hag (by decide)
  · injection ht with h1 h2
    exact absurd h1 (by decide)
  · injection ht with h1 h2
    exact absurd h1 (by decide)
  · injection ht with h1 h2
    rw [← h2, List.all_eq_true] at hall
    have := hall a (by simp)
    rw [hda] at this
    exact Bool.noConfusion this
  · injection ht with h1 h2
    exact absurd h1 (by decide)

lemma validSymbol_n_ext (u2 : Str) (a : Char) :
    isValidSymbol ('N' :: a :: u2) = false := by
  by_contra hval
  rw [Bool.not_eq_false] at hval
  rcases isValidSymbol_inv _ hval with
    ⟨c', run', ht, hag, _, _⟩ | ⟨c', d', run', ht, hag, _, _, _⟩ |
    ht | ht | ⟨ds, ht, _, _⟩ | ht
  · injection ht with h1 h2
    rw [← h1] at hag
    exact absurd hag (by decide)
  · injection ht with h1 h2
    rw [← h1] at hag
    exact absurd hag (by decide)
  · injection ht with h1 h2
    exact absurd h1 (by decide)
  · injection ht with h1 h2
    exact absurd h1 (by decide)
  · injection ht with h1 h2
    exact absurd h1 (by decide)
  · injection ht with h1 h2
    exact List.noConfusion h2

lemma matchSymbolAt_maximal (cs t r : Str) (h : matchSymbolAt cs = some (t, r)) :
    ∀ u v : Str, r = u ++ v → u ≠ [] → isValidSymbol (t ++ u) = false := by
  intro u v hr hu
  cases u with
  | nil => exact absurd rfl hu
  | cons a u2 =>
  cases cs with
  | nil => exact Option.noConfusion h
  | cons c rest =>
    simp only [matchSymbolAt] at h
    split at h
    next hag =>
      split at h
      next tl rr hct =>
        rw [Option.some.injEq, Prod.mk.injEq] at h
        obtain ⟨h1, h2⟩ := h
        rcases chordTail_shape rest tl rr hct with
          ⟨run, htl, _, _, hhead⟩ | ⟨d, run, htl, hdb, _, _, hhead⟩
        · have hnsa : isNonSpace a = false := hhead a (by rw [h2, hr]; rfl)
          rw [← h1, htl]
          simpa only [List.cons_append, List.append_assoc] using
            validSymbol_chord_ext c run u2 a hnsa
        · have hnsa : isNonSpace a = false := hhead a (by rw [h2, hr]; rfl)
          rw [← h1, htl]
          simpa only [List.cons_append, List.append_assoc] using
            validSymbol_chordb_ext c d run u2 a hdb hnsa
      · exact Option.noConfusion h
    next hag =>
      split at h
      next hstar =>
        rw [Option.some.injEq, Prod.mk.injEq] at h
        obtain ⟨h1, h2⟩ := h
        rw [← h1]
        exact validSymbol_star_ext u2 a
      next hstar =>
        split at h
        next hamp =>
          split at h
          next hpre =>
            rw [Option.some.injEq, Prod.mk.injEq] at h
            obtain ⟨h1, h2⟩ := h
            rw [← h1]
            exact validSymbol_pause_ext u2 a
          · exact Option.noConfusion h
        next hamp =>
          split at h
          next hx =>
            split at h
            · exact Option.noConfusion h
            next hds =>
              rw [Option.some.injEq, Prod.mk.injEq] at h
              obtain ⟨h1, h2⟩ := h
              have hda : isDigitCh a = false := by
                apply head?_dropWhile_not isDigitCh rest
                rw [h2, hr]
                rfl
              rw [← h1]
              simpa only [List.cons_append, List.append_assoc] using
                validSymbol_rep_ext (rest.takeWhile isDigitCh) u2 a hda
          next hx =>
            split at h
            next hn =>
              rw [Option.some.injEq, Prod.mk.injEq] at h
              obtain ⟨h1, h2⟩ := h
              rw [← h1]
              exact validSymbol_n_ext u2 a
            · exact Option.noConfusion h

lemma findallGo_valid :
    ∀ (n : Nat) (cs t : Str), t ∈ findallGo n cs → isValidSymbol t = true := by
  intro n
  induction n with
  | zero => intro cs t ht; simp [findallGo] at ht
  | succ n ih =>
    intro cs t ht
    cases cs with
    | nil => simp [findallGo] at ht
    | cons c rest =>
      simp only [findallGo] at ht
      cases hm : matchSymbolAt (c :: rest) with
      | some pr =>
        obtain ⟨tk, rr⟩ := pr
        rw [hm] at ht
        rcases List.mem_cons.1 ht with h1 | h2
        · subst h1
          exact matchSymbolAt_valid _ _ _ hm
        · exact ih _ _ h2
      | none =>
        rw [hm] at ht
        exact ih _ _ ht

/-- C7: the Chord Tokenizer is total by construction (`findall` is a plain
function on character lists), and it is exactly the left-to-right maximal
scan of the symbol grammar: every extracted token is a full grammar symbol;
an emitted match splits the input as token ++ remainder; where no match is
reported, no nonempty prefix is a grammar symbol (unmatched text is silently
skipped); an emitted token cannot be extended by any following characters
into a longer grammar symbol; and lines with zero symbols are dropped from
the section entirely. -/
theorem chord_tokenizer_spec :
    (∀ cs t : Str, t ∈ findall cs → isValidSymbol t = true) ∧
    (∀ cs t r : Str, matchSymbolAt cs = some (t, r) → cs = t ++ r ∧ t ≠ []) ∧
    (∀ cs : Str, matchSymbolAt cs = none →
      ∀ t r : Str, t ≠ [] → cs = t ++ r → isValidSymbol t = false) ∧
    (∀ cs t r u v : Str, matchSymbolAt cs = some (t, r) → r = u ++ v →
      u ≠ [] → isValidSymbol (t ++ u) = false) ∧
    (∀ grp : List Str, ∀ ts ∈ ((grp ++ [[]]).map findall).filter
        (fun l : List Str => decide (l.length > 0)), ts ≠ []) := by
  refine ⟨fun cs t ht => findallGo_valid cs.length cs t ht,
    fun cs t r h => matchSymbolAt_append cs t r h,
    fun cs h t r htne hcs => matchSymbolAt_none cs h t r htne hcs,
    fun cs t r u v h hr hu => matchSymbolAt_maximal cs t r h u v hr hu,
    fun grp ts hts => ?_⟩
  obtain ⟨hmem, hlen⟩ := List.mem_filter.1 hts
  intro hnil
  subst hnil
  simp at hlen

/-- Witness for C7 at a concrete line. -/
theorem chord_tokenizer_spec_witness :
    isValidSymbol "C:maj".data = true :=
  chord_tokenizer_spec.1 "| C:maj x2".data "C:maj".data (by decide)

lemma perm_insertSorted (a : Str) :
    ∀ l : List Str, List.Perm (insertSorted a l) (a :: l) := by
  intro l
  induction l with
  | nil => rfl
  | cons b t ih =>
    simp only [insertSorted]
    split
    · rfl
    · exact (ih.cons b).trans (List.Perm.swap a b t)

lemma sorted_insertSorted (a : Str) :
    ∀ l : List Str, l.Sorted (· ≤ ·) → (insertSorted a l).Sorted (· ≤ ·) := by
  intro l
  induction l with
  | nil => intro _; simp [insertSorted]
  | cons b t ih =>
    intro hs
    rw [List.sorted_cons] at hs
    obtain ⟨hb, ht⟩ := hs
    simp only [insertSorted]
    split
    next hab =>
      rw [List.sorted_cons]
      refine ⟨?_, by rw [List.sorted_cons]; exact ⟨hb, ht⟩⟩
      intro x hx
      rcases List.mem_cons.1 hx with h1 | h2
      · subst h1; exact hab
      · exact le_trans hab (hb x h2)
    next hab =>
      rw [List.sorted_cons]
      refine ⟨?_, ih ht⟩
      intro x hx
      rw [(perm_insertSorted a t).mem_iff] at hx
      rcases List.mem_cons.1 hx with h1 | h2
      · subst h1; exact le_of_not_le hab
      · exact hb x h2

lemma sorted_sortStrs (l : List Str) : (sortStrs l).Sorted (· ≤ ·) := by
  induction l with
  | nil => simp [sortStrs]
  | cons a t ih => exact sorted_insertSorted a _ ih

lemma perm_sortStrs (l : List Str) : List.Perm (sortStrs l) l := by
  induction l with
  | nil => rfl
  | cons a t ih => exact (perm_insertSorted a (sortStrs t)).trans (ih.cons a)

lemma mem_vocabOf (seqs : List (List Str)) (c : Str) :
    c ∈ vocabOf seqs ↔ c ∈ seqs.flatten := by
  rw [vocabOf, (perm_sortStrs _).mem_iff, List.mem_dedup]

lemma nodup_vocabOf (seqs : List (List Str)) : (vocabOf seqs).Nodup :=
  ((perm_sortStrs _).nodup_iff).2 (List.nodup_dedup _)

lemma sorted_vocabOf (seqs : List (List Str)) :
    (vocabOf seqs).Sorted (· ≤ ·) := sorted_sortStrs _

lemma idxOf_getElem? (a : Str) :
    ∀ l : List Str, a ∈ l → l[idxOf a l]? = some a := by
  intro l
  induction l with
  | nil => intro h; simp at h
  | cons b t ih =>
    intro h
    by_cases hb : b = a
    · subst hb
      simp [idxOf]
    · simp only [idxOf, if_neg hb]
      rw [List.getElem?_cons_succ]
      refine ih ?_
      rcases List.mem_cons.1 h with h1 | h2
      · exact absurd h1.symm hb
      · exact h2

lemma idxOf_countP (a : Str) :
    ∀ l : List Str, l.Sorted (· ≤ ·) → l.Nodup → a ∈ l →
      idxOf a l = l.countP (fun d => decide (d < a)) := by
  intro l
  induction l with
  | nil => intro _ _ h; simp at h
  | cons b t ih =>
    intro hs hn hm
    rw [List.sorted_cons] at hs
    obtain ⟨hball, hst⟩ := hs
    rw [List.nodup_cons] at hn
    obtain ⟨hbt, hnt⟩ := hn
    by_cases hb : b = a
    · subst hb
      simp only [idxOf, if_pos rfl]
      rw [List.countP_cons]
      have h2 : t.countP (fun d => decide (d < b)) = 0 := by
        rw [List.countP_eq_zero]
        intro x hx
        simp only [decide_eq_true_eq]
        exact not_lt.2 (hball x hx)
      simp [h2]
    · have hat : a ∈ t := by
        rcases List.mem_cons.1 hm with h1 | h2
        · exact absurd h1.symm hb
        · exact h2
      have hba : b < a := lt_of_le_of_ne (hball a hat) hb
      simp only [idxOf, if_neg hb]
      rw [List.countP_cons, ih hst hnt hat]
      simp [hba]

/-- C8: for every token occurring anywhere in a corpus of sequences,
decoding its assigned index returns the token itself, and the index is the
token's rank in the lexicographically sorted duplicate-free vocabulary (the
number of distinct smaller tokens); the vocabulary holds exactly the tokens
of the corpus.  `preprocess` builds `chords`/`chord2idx` and
`labels`/`label2idx` as the two instances of this one construction, applied
to all songs' `chord_seq`s and `label_seq`s respectively. -/
theorem vocab_spec :
    ∀ (seqs : List (List Str)) (c : Str), c ∈ seqs.flatten →
      (vocabOf seqs)[vocabIdx seqs c]? = some c ∧
      vocabIdx seqs c = (vocabOf seqs).countP (fun d => decide (d < c)) ∧
      (∀ d : Str, d ∈ vocabOf seqs ↔ d ∈ seqs.flatten) := by
  intro seqs c hc
  have hmem : c ∈ vocabOf seqs := (mem_vocabOf seqs c).2 hc
  exact ⟨idxOf_getElem? c _ hmem,
    idxOf_countP c _ (sorted_vocabOf seqs) (nodup_vocabOf seqs) hmem,
    fun d => mem_vocabOf seqs d⟩

/-- Witness for C8 on a two-song corpus. -/
theorem vocab_spec_witness :
    (vocabOf [["b".data], ["a".data]])[vocabIdx [["b".data], ["a".data]] "b".data]? =
      some "b".data :=
  (vocab_spec [["b".data], ["a".data]] "b".data (by decide)).1

lemma findallGo_nil : ∀ n, findallGo n [] = [] := by
  intro n
  cases n <;> rfl

/-- The fuel of `findallGo` is irrelevant once it is at least the input
length: every reported match consumes at least one character
(`matchSymbolAt_append`), so `findall`'s fuel `cs.length` never runs out. -/
lemma findallGo_congr :
    ∀ (n m : Nat) (cs : Str), cs.length ≤ n → cs.length ≤ m →
      findallGo n cs = findallGo m cs := by
  intro n
  induction n with
  | zero =>
    intro m cs hn _
    have hcs : cs = [] := List.length_eq_zero.1 (Nat.le_zero.1 hn)
    subst hcs
    rw [findallGo_nil, findallGo_nil]
  | succ n ih =>
    intro m cs hn hm
    cases cs with
    | nil => rw [findallGo_nil, findallGo_nil]
    | cons c rest =>
      cases m with
      | zero => simp at hm
      | succ m =>
        show (match matchSymbolAt (c :: rest) with
          | some (t, r) => t :: findallGo n r
          | none => findallGo n rest) =
          (match matchSymbolAt (c :: rest) with
          | some (t, r) => t :: findallGo m r
          | none => findallGo m rest)
        cases hmt : matchSymbolAt (c :: rest) with
        | some pr =>
          obtain ⟨t, r⟩ := pr
          obtain ⟨heq, htne⟩ := matchSymbolAt_append _ _ _ hmt
          have hlen : (c :: rest).length = t.length + r.length := by
            rw [heq, List.length_append]
          have htpos : 1 ≤ t.length := by
            cases t with
            | nil => exact absurd rfl htne
            | cons a b => simp
          have hn' : (c :: rest).length ≤ n + 1 := hn
          have hm' : (c :: rest).length ≤ m + 1 := hm
          show t :: findallGo n r = t :: findallGo m r
          rw [ih m r (by omega) (by omega)]
        | none =>
          have hn' : rest.length + 1 ≤ n + 1 := hn
          have hm' : rest.length + 1 ≤ m + 1 := hm
          show findallGo n rest = findallGo m rest
          rw [ih m rest (by omega) (by omega)]

